import Mathlib

/-!
Verification development for the BioAge-app PDF ingestion and query scripts.

The scripts split extracted PDF text into bounded chunks, derive stable record
identifiers, submit the records to a remote vector store in fixed-size batches,
and issue similarity queries against the store.  Text is modelled as
`List Char`.  The remote store, the embedding model and the PDF reader are
external collaborators and appear as oracle parameters of the models.
-/

/-- Sum of the lengths of a list of strings (the running `total` of the
merge loop in the text splitter). -/
def sumLen (l : List (List Char)) : Nat := (l.map List.length).sum

/-- Python `str.strip()`: remove leading and trailing whitespace. -/
def stripChars (l : List Char) : List Char :=
  ((l.dropWhile Char.isWhitespace).reverse.dropWhile Char.isWhitespace).reverse

/-- Modelled from the spec: the recursive character splitter invoked by
`chunk_text` lives in an external text-splitting library and is not part of
this repository.  This is its `_join_docs` step: join the accumulated splits
with the empty separator, strip whitespace, and drop the result when it is
empty. -/
def joinDocs (docs : List (List Char)) : Option (List Char) :=
  let t := stripChars docs.flatten
  if t = [] then none else some t

/-- Modelled from the spec: the overlap window of the splitter's merge step.
After emitting a chunk the splitter pops leading splits while the running
total exceeds `chunk_overlap`, or while the total still has no room for the
incoming split of length `l` within `chunk_size`. -/
def popWhile (cs co l : Nat) : List (List Char) → List (List Char)
  | [] => []
  | d :: rest =>
      if co < sumLen (d :: rest) ∨ (cs < sumLen (d :: rest) + l ∧ 0 < sumLen (d :: rest)) then
        popWhile cs co l rest
      else d :: rest

/-- Modelled from the spec: the splitter's `_merge_splits` loop.  `current`
is the window of splits accumulated so far.  When the incoming split `d`
does not fit within `chunk_size`, the joined window is emitted as a chunk
and the window is shrunk to at most `chunk_overlap` characters before `d`
is appended. -/
def mergeAux (cs co : Nat) (current : List (List Char)) : List (List Char) → List (List Char)
  | [] => (joinDocs current).toList
  | d :: ds =>
      if cs < sumLen current + d.length then
        (joinDocs current).toList ++ mergeAux cs co (popWhile cs co d.length current ++ [d]) ds
      else
        mergeAux cs co (current ++ [d]) ds

/-- Merge a run of small splits into overlapping chunks of size at most
`chunk_size`. -/
def mergeSplits (cs co : Nat) (splits : List (List Char)) : List (List Char) :=
  mergeAux cs co [] splits

/-- Split `text` at every occurrence of the (non-empty) separator `sep`,
leftmost first and non-overlapping; `skip` counts separator characters still
to be consumed, `acc` accumulates the current piece in reverse. -/
def splitOnAux (sep : List Char) : List Char → Nat → List Char → List (List Char)
  | [], _, acc => [acc.reverse]
  | c :: rest, 0, acc =>
      if sep.isPrefixOf (c :: rest) then
        acc.reverse :: splitOnAux sep rest (sep.length - 1) []
      else
        splitOnAux sep rest 0 (c :: acc)
  | _ :: rest, k + 1, acc => splitOnAux sep rest k acc

/-- Modelled from the spec: the splitter's `_split_text_with_regex` with
`keep_separator` enabled.  For the empty separator the text becomes the list
of its characters; otherwise the text is split at the separator and each
separator occurrence is re-attached to the front of the following piece.
Empty pieces are filtered out. -/
def splitWithSep (sep : List Char) (text : List Char) : List (List Char) :=
  if sep = [] then
    (text.map fun c => [c]).filter (· ≠ [])
  else
    match splitOnAux sep text 0 [] with
    | [] => []
    | p :: ps => (p :: ps.map fun q => sep ++ q).filter (· ≠ [])

/-- Modelled from the spec: the loop of the splitter's `_split_text` over the
pieces produced for the chosen separator.  Pieces shorter than `chunk_size`
are collected in `good` and merged; an oversized piece first flushes the
merged run, then is handed to `recurse` (recursive splitting with the
remaining separators, or kept whole when no separators remain). -/
def procSplits (cs co : Nat) (recurse : List Char → List (List Char))
    (good : List (List Char)) : List (List Char) → List (List Char)
  | [] => mergeSplits cs co good
  | s :: ss =>
      if s.length < cs then
        procSplits cs co recurse (good ++ [s]) ss
      else
        mergeSplits cs co good ++ recurse s ++ procSplits cs co recurse [] ss

/-- Does `sep` occur as a contiguous substring of `text` (the splitter's
`re.search` test with an escaped, hence literal, separator)? -/
def containsSub (text sep : List Char) : Bool :=
  match text with
  | [] => sep.isEmpty
  | _ :: rest => sep.isPrefixOf text || containsSub rest sep

/-- Modelled from the spec: the splitter's `_split_text`.  The first separator
that is empty or occurs in the text is chosen; splitting with the last
separator of the list uses no further recursion, exactly as in the library's
separator-selection loop. -/
def splitTextAux (cs co : Nat) : List (List Char) → List Char → List (List Char)
  | [], _ => []
  | sep :: rest, text =>
      if sep = [] then
        procSplits cs co (fun s => [s]) [] (splitWithSep [] text)
      else if rest = [] then
        procSplits cs co (fun s => [s]) [] (splitWithSep sep text)
      else if containsSub text sep then
        procSplits cs co (splitTextAux cs co rest) [] (splitWithSep sep text)
      else
        splitTextAux cs co rest text

/-- Modelled from the spec: `chunk_text(text, chunk_size, chunk_overlap)`
splits text preferentially at paragraph boundaries, then line boundaries,
then word boundaries, then single characters — the separator priority list
of the splitter configured in `ingest_pdf_simple.py`. -/
def chunk_text (text : List Char) (chunk_size chunk_overlap : Nat) : List (List Char) :=
  splitTextAux chunk_size chunk_overlap [['\n', '\n'], ['\n'], [' '], []] text

/-- Replace every occurrence of the (non-empty) pattern `pat` by `rep`,
leftmost first and non-overlapping — Python `str.replace`.  `skip` counts
pattern characters of the current match still to be consumed. -/
def replaceAllAux (pat rep : List Char) : List Char → Nat → List Char
  | [], _ => []
  | c :: rest, 0 =>
      if pat ≠ [] ∧ pat.isPrefixOf (c :: rest) then
        rep ++ replaceAllAux pat rep rest (pat.length - 1)
      else
        c :: replaceAllAux pat rep rest 0
  | _ :: rest, k + 1 => replaceAllAux pat rep rest k

/-- Python `text.replace(pat, rep)`. -/
def replaceAll (pat rep text : List Char) : List Char :=
  replaceAllAux pat rep text 0

/-- Decimal rendering of a natural number, MSB first, with bounded fuel so
the definition is structural; `natToDecimal` supplies sufficient fuel. -/
def natToDecimalAux : Nat → Nat → List Char
  | 0, _ => []
  | _ + 1, 0 => []
  | fuel + 1, n + 1 =>
      natToDecimalAux fuel ((n + 1) / 10) ++ [Nat.digitChar ((n + 1) % 10)]

/-- The decimal rendering of the chunk index used by the ingestion scripts
when formatting the record identifier. -/
def natToDecimal (n : Nat) : List Char :=
  if n = 0 then ['0'] else natToDecimalAux (n + 1) n

/-- Record identifier of `ingest_pdf_simple.py`: the filename with every
occurrence of ".pdf" removed, an underscore, and the decimal chunk index. -/
def recordId_simple (pdf_filename : List Char) (i : Nat) : List Char :=
  replaceAll ['.', 'p', 'd', 'f'] [] pdf_filename ++ '_' :: natToDecimal i

/-- Record identifier of `ingest_pdf_to_astra_v2.py`: the filename, the
literal "_chunk_", and the decimal chunk index. -/
def recordId_v2 (pdf_filename : List Char) (i : Nat) : List Char :=
  pdf_filename ++ ['_', 'c', 'h', 'u', 'n', 'k', '_'] ++ natToDecimal i

/-- The two Astra DB credentials read from the process environment.  `none`
models an unset variable; `some []` models a set-but-empty one. -/
structure Env where
  api_endpoint : Option (List Char)
  application_token : Option (List Char)
  deriving DecidableEq

/-- Python truthiness test `not value` on an optional string: unset or empty
counts as missing. -/
def missingCred : Option (List Char) → Bool
  | none => true
  | some s => s.isEmpty

/-- The guard `if not ASTRA_DB_API_ENDPOINT or not ASTRA_DB_APPLICATION_TOKEN`
shared by the ingestion scripts and `query_astra`. -/
def credsMissing (env : Env) : Bool :=
  missingCred env.api_endpoint || missingCred env.application_token

/-- The document built for one chunk by `ingest_pdf_simple.py`: record id,
source filename, chunk index, chunk count, and the raw text submitted under
the vectorize marker field for server-side embedding. -/
structure ChunkDoc where
  docId : List Char
  source : List Char
  chunk_id : Nat
  total_chunks : Nat
  vectorize : List Char
  deriving DecidableEq

/-- The documents prepared by `ingest_pdf_simple.py` for an ordered chunk
sequence, in order. -/
def mkDocuments (chunks : List (List Char)) (pdf_filename : List Char) : List ChunkDoc :=
  chunks.enum.map fun p =>
    { docId := recordId_simple pdf_filename p.1
      source := pdf_filename
      chunk_id := p.1
      total_chunks := chunks.length
      vectorize := p.2 }

/-- The document built for one chunk by `ingest_pdf_to_astra_v2.py`: record
id, chunk text, locally computed embedding vector, and metadata. -/
structure ChunkDocV2 where
  docId : List Char
  text : List Char
  vector : List Int
  source : List Char
  chunk_id : Nat
  total_chunks : Nat
  deriving DecidableEq

/-- The documents prepared by `ingest_pdf_to_astra_v2.py`; `embed` is the
external embedding model. -/
def mkDocumentsV2 (embed : List Char → List Int) (chunks : List (List Char))
    (pdf_filename : List Char) : List ChunkDocV2 :=
  chunks.enum.map fun p =>
    { docId := recordId_v2 pdf_filename p.1
      text := p.2
      vector := embed p.2
      source := pdf_filename
      chunk_id := p.1
      total_chunks := chunks.length }

/-- The slice start indices of the batching loop
`for i in range(0, len(documents), batch_size)`. -/
def batchStarts (n bs : Nat) : List Nat :=
  (List.range ((n + bs - 1) / bs)).map (· * bs)

/-- The batches `documents[i:i+batch_size]` taken at each start index, in
submission order. -/
def toBatches (bs : Nat) (l : List α) : List (List α) :=
  (batchStarts l.length bs).map fun i => (l.drop i).take bs

/-- The batch-submission loop of `ingest_pdf_simple.py`: each `insert_many`
call is wrapped in try/except, so every batch is attempted and its own
outcome recorded, and the loop continues past failures. -/
def submitLoopSimple (insert : List ChunkDoc → Except (List Char) Nat) :
    List (List ChunkDoc) → List (List ChunkDoc × Except (List Char) Nat)
  | [] => []
  | b :: bs => (b, insert b) :: submitLoopSimple insert bs

/-- The batch-submission loop of `ingest_pdf_to_astra_v2.py`: `insert_many`
is not wrapped in try/except, so the first failing batch raises and the
remaining batches are never attempted.  Returns the batches attempted, in
order, and the raised error if any. -/
def submitLoopV2 (insert : List ChunkDocV2 → Except (List Char) Nat) :
    List (List ChunkDocV2) → List (List ChunkDocV2) × Option (List Char)
  | [] => ([], none)
  | b :: bs =>
      match insert b with
      | .error e => ([b], some e)
      | .ok _ =>
          let r := submitLoopV2 insert bs
          (b :: r.1, r.2)

/-- A call made to the remote Astra DB store. -/
inductive RemoteOp where
  | insertMany (batch : List ChunkDoc)
  | search (query_text : List Char) (lim : Nat)
  | listCollections
  deriving DecidableEq

/-- The configuration failure raised before any remote call. -/
inductive IngestError where
  | missingCreds
  deriving DecidableEq

/-- `ingest_to_astra` of `ingest_pdf_simple.py`: verify credentials before
contacting the store, build the documents, and submit them in batches of 20
with per-batch failure isolation.  Returns the remote calls made and either
the configuration error or the per-batch outcomes.  `insert` is the remote
store's `insert_many`. -/
def ingest_to_astra (env : Env) (insert : List ChunkDoc → Except (List Char) Nat)
    (chunks : List (List Char)) (pdf_filename : List Char) :
    List RemoteOp × Except IngestError (List (List ChunkDoc × Except (List Char) Nat)) :=
  if credsMissing env then ([], .error .missingCreds)
  else
    let bas := toBatches 20 (mkDocuments chunks pdf_filename)
    (bas.map RemoteOp.insertMany, .ok (submitLoopSimple insert bas))

/-- `ingest_to_astra` of `ingest_pdf_to_astra_v2.py`: verify credentials,
embed locally, and submit batches of 20 with no per-batch exception
handling. -/
def ingest_to_astra_v2 (env : Env) (insert : List ChunkDocV2 → Except (List Char) Nat)
    (embed : List Char → List Int) (chunks : List (List Char)) (pdf_filename : List Char) :
    Except IngestError (List (List ChunkDocV2) × Option (List Char)) :=
  if credsMissing env then .error .missingCreds
  else .ok (submitLoopV2 insert (toBatches 20 (mkDocumentsV2 embed chunks pdf_filename)))

/-- Failures of the query operations. -/
inductive QueryError where
  | missingCreds
  | remote (msg : List Char)
  deriving DecidableEq

/-- What `query_astra` reports: the number of results displayed and whether
the no-results notice was printed. -/
structure QuerySummary where
  result_count : Nat
  no_results_message : Bool
  deriving DecidableEq

/-- `query_astra` of `query_astra.py`: verify credentials before contacting
the store, then run the similarity search (`search` is the store's `find`)
and report the results; zero results completes normally with the no-results
notice.  Returns the remote calls made and the outcome. -/
def query_astra (env : Env) (search : List Char → Nat → Except (List Char) (List ChunkDoc))
    (query_text : List Char) (lim : Nat) :
    List RemoteOp × Except QueryError QuerySummary :=
  if credsMissing env then ([], .error .missingCreds)
  else
    match search query_text lim with
    | .error e => ([.search query_text lim], .error (.remote e))
    | .ok docs =>
        ([.search query_text lim],
         .ok { result_count := docs.length, no_results_message := docs.length == 0 })

/-- `list_collections` of `query_astra.py`: the source performs no credential
check — it constructs the client from whatever the environment holds and
contacts the store unconditionally.  `names` is the store's
`list_collection_names`. -/
def list_collections (env : Env) (names : Except (List Char) (List (List Char))) :
    List RemoteOp × Except QueryError (List (List Char)) :=
  match env, names with
  | _, .error e => ([.listCollections], .error (.remote e))
  | _, .ok ns => ([.listCollections], .ok ns)

/-- The fatal outcomes of `main` in `ingest_pdf_simple.py`. -/
inductive MainError where
  | noTextExtracted
  | missingCreds
  deriving DecidableEq

/-- The observable outcome of one run of `main` in `ingest_pdf_simple.py`. -/
structure RunTrace where
  errored : Option MainError
  chunks : List (List Char)
  remote_calls : List RemoteOp
  outcomes : List (List ChunkDoc × Except (List Char) Nat)

/-- `main` of `ingest_pdf_simple.py` after text extraction: abort when the
extracted text strips to nothing (before chunking and before any remote
call); otherwise chunk and ingest, reporting a credential failure raised by
`ingest_to_astra`. -/
def mainSimple (env : Env) (insert : List ChunkDoc → Except (List Char) Nat)
    (text : List Char) (chunk_size chunk_overlap : Nat) (pdf_filename : List Char) :
    RunTrace :=
  if stripChars text = [] then
    { errored := some .noTextExtracted, chunks := [], remote_calls := [], outcomes := [] }
  else
    let chunks := chunk_text text chunk_size chunk_overlap
    let r := ingest_to_astra env insert chunks pdf_filename
    match r.2 with
    | .error _ => { errored := some .missingCreds, chunks := chunks,
                    remote_calls := r.1, outcomes := [] }
    | .ok outs => { errored := none, chunks := chunks,
                    remote_calls := r.1, outcomes := outs }

/-- The ordered list of record identifiers one ingestion run of
`ingest_pdf_simple.py` derives for a document. -/
def derivedIds (text : List Char) (chunk_size chunk_overlap : Nat)
    (pdf_filename : List Char) : List (List Char) :=
  (mkDocuments (chunk_text text chunk_size chunk_overlap) pdf_filename).map ChunkDoc.docId

/-! ### Lemmas about the chunker -/

theorem sumLen_nil : sumLen [] = 0 := rfl

theorem sumLen_append (a b : List (List Char)) :
    sumLen (a ++ b) = sumLen a + sumLen b := by
  simp [sumLen]

theorem sumLen_singleton (d : List Char) : sumLen [d] = d.length := by
  simp [sumLen]

theorem stripChars_length_le (l : List Char) : (stripChars l).length ≤ l.length := by
  unfold stripChars
  rw [List.length_reverse]
  refine le_trans (List.dropWhile_sublist _).length_le ?_
  rw [List.length_reverse]
  exact (List.dropWhile_sublist _).length_le

theorem mem_joinDocs_toList {cur : List (List Char)} {out : List Char}
    (h : out ∈ (joinDocs cur).toList) : out.length ≤ sumLen cur ∧ out ≠ [] := by
  unfold joinDocs at h
  by_cases he : stripChars cur.flatten = []
  · simp [he] at h
  · simp only [he, if_neg, if_false, Option.toList_some, List.mem_singleton] at h
    subst h
    refine ⟨?_, he⟩
    calc (stripChars cur.flatten).length ≤ cur.flatten.length := stripChars_length_le _
      _ = sumLen cur := by simp [sumLen, List.length_flatten]

theorem popWhile_exit (cs co l : Nat) (cur : List (List Char)) :
    sumLen (popWhile cs co l cur) + l ≤ cs ∨ sumLen (popWhile cs co l cur) = 0 := by
  induction cur with
  | nil => right; simp [popWhile, sumLen]
  | cons d rest ih =>
      rw [popWhile]
      split
      · exact ih
      · next hcond => omega

theorem mergeAux_sound (cs co : Nat) :
    ∀ (ds cur : List (List Char)), (∀ s ∈ ds, s.length < cs) → sumLen cur ≤ cs →
    ∀ out ∈ mergeAux cs co cur ds, out.length ≤ cs ∧ out ≠ [] := by
  intro ds
  induction ds with
  | nil =>
      intro cur _ hcur out hout
      rw [mergeAux] at hout
      have h := mem_joinDocs_toList hout
      exact ⟨le_trans h.1 hcur, h.2⟩
  | cons d ds ih =>
      intro cur hds hcur out hout
      rw [mergeAux] at hout
      by_cases hc : cs < sumLen cur + d.length
      · rw [if_pos hc] at hout
        rcases List.mem_append.mp hout with h | h
        · have h2 := mem_joinDocs_toList h
          exact ⟨le_trans h2.1 hcur, h2.2⟩
        · refine ih _ (fun s hs => hds s (List.mem_cons_of_mem _ hs)) ?_ out h
          have hd : d.length < cs := hds d (List.mem_cons_self _ _)
          have hp := popWhile_exit cs co d.length cur
          rw [sumLen_append, sumLen_singleton]
          omega
      · rw [if_neg hc] at hout
        refine ih _ (fun s hs => hds s (List.mem_cons_of_mem _ hs)) ?_ out hout
        rw [sumLen_append, sumLen_singleton]
        omega

theorem mergeSplits_sound (cs co : Nat) (splits : List (List Char))
    (h : ∀ s ∈ splits, s.length < cs) :
    ∀ out ∈ mergeSplits cs co splits, out.length ≤ cs ∧ out ≠ [] := by
  intro out hout
  rw [mergeSplits] at hout
  exact mergeAux_sound cs co splits [] h (by simp [sumLen]) out hout

theorem procSplits_sound (cs co : Nat) (recurse : List Char → List (List Char)) :
    ∀ (splits good : List (List Char)),
    (∀ g ∈ good, g.length < cs) →
    (∀ s ∈ splits, cs ≤ s.length → ∀ out ∈ recurse s, out.length ≤ cs ∧ out ≠ []) →
    ∀ out ∈ procSplits cs co recurse good splits, out.length ≤ cs ∧ out ≠ [] := by
  intro splits
  induction splits with
  | nil =>
      intro good hg _ out hout
      rw [procSplits] at hout
      exact mergeSplits_sound cs co good hg out hout
  | cons s ss ih =>
      intro good hg hrec out hout
      rw [procSplits] at hout
      by_cases hs : s.length < cs
      · rw [if_pos hs] at hout
        refine ih (good ++ [s]) ?_ ?_ out hout
        · intro g hgm
          rcases List.mem_append.mp hgm with h | h
          · exact hg g h
          · simp only [List.mem_singleton] at h
            subst h
            exact hs
        · intro t ht
          exact hrec t (List.mem_cons_of_mem _ ht)
      · rw [if_neg hs] at hout
        rcases List.mem_append.mp hout with h | h
        · rcases List.mem_append.mp h with h1 | h1
          · exact mergeSplits_sound cs co good hg out h1
          · exact hrec s (List.mem_cons_self _ _) (le_of_not_lt hs) out h1
        · exact ih [] (by simp) (fun t ht => hrec t (List.mem_cons_of_mem _ ht)) out h

theorem splitWithSep_ne_nil {sep text : List Char} :
    ∀ s ∈ splitWithSep sep text, s ≠ [] := by
  intro s hs
  unfold splitWithSep at hs
  split at hs
  · exact of_decide_eq_true (List.mem_filter.mp hs).2
  · split at hs
    · simp at hs
    · exact of_decide_eq_true (List.mem_filter.mp hs).2

theorem splitWithSep_nil_len {text : List Char} :
    ∀ s ∈ splitWithSep [] text, s.length = 1 := by
  intro s hs
  unfold splitWithSep at hs
  rw [if_pos rfl] at hs
  have h1 := (List.mem_filter.mp hs).1
  rcases List.mem_map.mp h1 with ⟨c, _, hc⟩
  subst hc
  rfl

theorem splitTextAux_sound (cs co : Nat) (hcs : 1 ≤ cs) :
    ∀ (seps : List (List Char)), [] ∈ seps →
    ∀ (text out : List Char), out ∈ splitTextAux cs co seps text →
    out.length ≤ cs ∧ out ≠ [] := by
  intro seps
  induction seps with
  | nil =>
      intro h
      simp at h
  | cons sep rest ih =>
      intro hmem text out hout
      rw [splitTextAux] at hout
      by_cases h1 : sep = []
      · rw [if_pos h1] at hout
        refine procSplits_sound cs co _ _ [] (by simp) ?_ out hout
        intro s hsm _ t ht
        simp only [List.mem_singleton] at ht
        subst ht
        have hl := splitWithSep_nil_len t hsm
        exact ⟨by omega, splitWithSep_ne_nil t hsm⟩
      · rw [if_neg h1] at hout
        have hrest : [] ∈ rest := by
          rcases List.mem_cons.mp hmem with h | h
          · exact absurd h.symm h1
          · exact h
        by_cases h2 : rest = []
        · subst h2
          simp at hrest
        · rw [if_neg h2] at hout
          by_cases h3 : containsSub text sep
          · rw [if_pos h3] at hout
            refine procSplits_sound cs co _ _ [] (by simp) ?_ out hout
            intro s _ _ t ht
            exact ih hrest s t ht
          · rw [if_neg h3] at hout
            exact ih hrest text out hout

/-- C2: for every input text and every parameter pair with
chunk_overlap < chunk_size, every chunk produced by
chunk_text(text, chunk_size, chunk_overlap) has length at most chunk_size
characters — even when the text contains a run longer than chunk_size with
no break point — and no produced chunk is the empty string. -/
theorem chunk_text_bounded_nonempty (text : List Char) (chunk_size chunk_overlap : Nat)
    (h : chunk_overlap < chunk_size) :
    ∀ c ∈ chunk_text text chunk_size chunk_overlap, c.length ≤ chunk_size ∧ c ≠ [] := by
  intro c hc
  exact splitTextAux_sound chunk_size chunk_overlap (by omega) _ (by decide) text c hc

/-- Witness for C2 at a concrete input. -/
theorem chunk_text_bounded_nonempty_witness :
    1 < 3 ∧ ∀ c ∈ chunk_text ['a', 'b', ' ', 'c', 'd'] 3 1, c.length ≤ 3 ∧ c ≠ [] :=
  ⟨by decide, chunk_text_bounded_nonempty ['a', 'b', ' ', 'c', 'd'] 3 1 (by decide)⟩

/-- C3: chunking is deterministic — any two runs of chunk_text on the
identical triple (text, chunk_size, chunk_overlap) yield the identical
sequence of chunks, in the same order. -/
theorem chunk_text_deterministic (t₁ t₂ : List Char) (cs₁ cs₂ co₁ co₂ : Nat)
    (ht : t₁ = t₂) (hcs : cs₁ = cs₂) (hco : co₁ = co₂) :
    chunk_text t₁ cs₁ co₁ = chunk_text t₂ cs₂ co₂ := by
  subst ht
  subst hcs
  subst hco
  rfl

/-- Witness for C3 at a concrete input. -/
theorem chunk_text_deterministic_witness :
    chunk_text ['a', ' ', 'b'] 2 1 = chunk_text ['a', ' ', 'b'] 2 1 :=
  chunk_text_deterministic ['a', ' ', 'b'] ['a', ' ', 'b'] 2 2 1 1 rfl rfl rfl

/-! ### Lemmas about the record identifier -/

theorem digitChar_inj_lt (a b : Nat) (ha : a < 10) (hb : b < 10) :
    Nat.digitChar a = Nat.digitChar b → a = b := by
  interval_cases a <;> interval_cases b <;> decide

theorem natToDecimalAux_eq_digits :
    ∀ (fuel n : Nat), n ≤ fuel →
    natToDecimalAux (fuel + 1) n = ((Nat.digits 10 n).map Nat.digitChar).reverse := by
  intro fuel
  induction fuel with
  | zero =>
      intro n hn
      interval_cases n
      simp [natToDecimalAux]
  | succ fuel ih =>
      intro n hn
      cases n with
      | zero => simp [natToDecimalAux]
      | succ m =>
          have hlt : (m + 1) / 10 < m + 1 := Nat.div_lt_self (by omega) (by omega)
          rw [show natToDecimalAux (fuel + 1 + 1) (m + 1) =
              natToDecimalAux (fuel + 1) ((m + 1) / 10) ++ [Nat.digitChar ((m + 1) % 10)]
            from rfl]
          rw [ih ((m + 1) / 10) (by omega)]
          have hd : Nat.digits 10 (m + 1) = (m + 1) % 10 :: Nat.digits 10 ((m + 1) / 10) :=
            Nat.digits_def' (by norm_num) (by omega)
          rw [hd]
          simp

theorem natToDecimal_eq_digits (n : Nat) :
    natToDecimal n =
      if n = 0 then ['0'] else ((Nat.digits 10 n).map Nat.digitChar).reverse := by
  unfold natToDecimal
  by_cases h : n = 0
  · simp [h]
  · rw [if_neg h, if_neg h]
    exact natToDecimalAux_eq_digits n n le_rfl

theorem map_digitChar_inj :
    ∀ (l₁ l₂ : List Nat), (∀ x ∈ l₁, x < 10) → (∀ x ∈ l₂, x < 10) →
    l₁.map Nat.digitChar = l₂.map Nat.digitChar → l₁ = l₂ := by
  intro l₁
  induction l₁ with
  | nil =>
      intro l₂ _ _ h
      cases l₂ with
      | nil => rfl
      | cons b t => simp at h
  | cons a t ih =>
      intro l₂ h1 h2 h
      cases l₂ with
      | nil => simp at h
      | cons b t₂ =>
          simp only [List.map_cons, List.cons.injEq] at h
          have hab := digitChar_inj_lt a b (h1 a (List.mem_cons_self _ _))
            (h2 b (List.mem_cons_self _ _)) h.1
          subst hab
          rw [ih t₂ (fun x hx => h1 x (List.mem_cons_of_mem _ hx))
            (fun x hx => h2 x (List.mem_cons_of_mem _ hx)) h.2]

theorem natToDecimal_injective : Function.Injective natToDecimal := by
  intro m n h
  rw [natToDecimal_eq_digits, natToDecimal_eq_digits] at h
  by_cases hm : m = 0 <;> by_cases hn : n = 0
  · omega
  · exfalso
    rw [if_pos hm, if_neg hn] at h
    have h2 : (Nat.digits 10 n).map Nat.digitChar = ['0'] := by
      have := congrArg List.reverse h
      simpa using this.symm
    rcases hd : Nat.digits 10 n with _ | ⟨d, ds⟩
    · rw [hd] at h2
      simp at h2
    · rw [hd] at h2
      simp only [List.map_cons, List.cons.injEq, List.map_eq_nil_iff] at h2
      have hdlt : d < 10 := Nat.digits_lt_base (by norm_num)
        (by rw [hd]; exact List.mem_cons_self _ _)
      have hd0 : d = 0 := digitChar_inj_lt d 0 hdlt (by norm_num) h2.1
      have hofd := Nat.ofDigits_digits 10 n
      rw [hd, hd0, h2.2] at hofd
      simp [Nat.ofDigits] at hofd
      exact hn hofd.symm
  · exfalso
    rw [if_neg hm, if_pos hn] at h
    have h2 : (Nat.digits 10 m).map Nat.digitChar = ['0'] := by
      have := congrArg List.reverse h
      simpa using this
    rcases hd : Nat.digits 10 m with _ | ⟨d, ds⟩
    · rw [hd] at h2
      simp at h2
    · rw [hd] at h2
      simp only [List.map_cons, List.cons.injEq, List.map_eq_nil_iff] at h2
      have hdlt : d < 10 := Nat.digits_lt_base (by norm_num)
        (by rw [hd]; exact List.mem_cons_self _ _)
      have hd0 : d = 0 := digitChar_inj_lt d 0 hdlt (by norm_num) h2.1
      have hofd := Nat.ofDigits_digits 10 m
      rw [hd, hd0, h2.2] at hofd
      simp [Nat.ofDigits] at hofd
      exact hm hofd.symm
  · rw [if_neg hm, if_neg hn] at h
    have h2 : (Nat.digits 10 m).map Nat.digitChar = (Nat.digits 10 n).map Nat.digitChar := by
      have := congrArg List.reverse h
      simpa using this
    have h3 := map_digitChar_inj _ _
      (fun x hx => Nat.digits_lt_base (by norm_num) hx)
      (fun x hx => Nat.digits_lt_base (by norm_num) hx) h2
    have hm2 := Nat.ofDigits_digits 10 m
    have hn2 := Nat.ofDigits_digits 10 n
    rw [← hm2, ← hn2, h3]

theorem recordId_simple_injOn (src : List Char) (i j : Nat)
    (h : recordId_simple src i = recordId_simple src j) : i = j := by
  unfold recordId_simple at h
  have h2 := List.append_cancel_left h
  simp only [List.cons.injEq, true_and] at h2
  exact natToDecimal_injective h2

theorem recordId_v2_injOn (src : List Char) (i j : Nat)
    (h : recordId_v2 src i = recordId_v2 src j) : i = j := by
  unfold recordId_v2 at h
  rw [List.append_assoc, List.append_assoc] at h
  have h2 := List.append_cancel_left h
  have h3 := List.append_cancel_left h2
  exact natToDecimal_injective h3

/-- C4: the record_id derivation is a deterministic function of
(source_id, sequence_index), and within one document (fixed source_id) it is
injective: distinct sequence indices yield distinct derived record ids, in
both ingestion variants. -/
theorem recordId_deterministic_injective (src : List Char) (i j : Nat) :
    (i = j →
      recordId_simple src i = recordId_simple src j ∧
      recordId_v2 src i = recordId_v2 src j) ∧
    (i ≠ j →
      recordId_simple src i ≠ recordId_simple src j ∧
      recordId_v2 src i ≠ recordId_v2 src j) := by
  constructor
  · intro h
    subst h
    exact ⟨rfl, rfl⟩
  · intro h
    exact ⟨fun he => h (recordId_simple_injOn src i j he),
           fun he => h (recordId_v2_injOn src i j he)⟩

/-- Witness for C4 at concrete indices. -/
theorem recordId_deterministic_injective_witness :
    (0 : Nat) ≠ 1 ∧
    (recordId_simple ['a'] 0 ≠ recordId_simple ['a'] 1 ∧
     recordId_v2 ['a'] 0 ≠ recordId_v2 ['a'] 1) :=
  ⟨by decide, (recordId_deterministic_injective ['a'] 0 1).2 (by decide)⟩

theorem derivedIds_eq (text : List Char) (cs co : Nat) (src : List Char) :
    derivedIds text cs co src =
      (List.range (chunk_text text cs co).length).map (recordId_simple src) := by
  simp only [derivedIds, mkDocuments, List.map_map]
  rw [← List.enum_map_fst (chunk_text text cs co), List.map_map]
  rfl

/-- C5: re-running ingestion for the same document is idempotent at the
identifier level — two runs over identical inputs derive exactly the same
record ids (the combined id set of two runs is the single run's set), and
the ids within a run are pairwise distinct rather than duplicated. -/
theorem ingest_idempotent_ids (t₁ t₂ : List Char) (cs₁ cs₂ co₁ co₂ : Nat)
    (s₁ s₂ : List Char)
    (ht : t₁ = t₂) (hcs : cs₁ = cs₂) (hco : co₁ = co₂) (hs : s₁ = s₂) :
    derivedIds t₁ cs₁ co₁ s₁ = derivedIds t₂ cs₂ co₂ s₂ ∧
    (derivedIds t₁ cs₁ co₁ s₁ ++ derivedIds t₂ cs₂ co₂ s₂).toFinset =
      (derivedIds t₁ cs₁ co₁ s₁).toFinset ∧
    (derivedIds t₁ cs₁ co₁ s₁).Nodup := by
  subst ht
  subst hcs
  subst hco
  subst hs
  refine ⟨rfl, by simp, ?_⟩
  rw [derivedIds_eq]
  exact (List.nodup_range _).map (fun i j hij => recordId_simple_injOn s₁ i j hij)

/-- Witness for C5 at a concrete input. -/
theorem ingest_idempotent_ids_witness :
    derivedIds ['h', 'i'] 5 1 ['f'] = derivedIds ['h', 'i'] 5 1 ['f'] ∧
    (derivedIds ['h', 'i'] 5 1 ['f'] ++ derivedIds ['h', 'i'] 5 1 ['f']).toFinset =
      (derivedIds ['h', 'i'] 5 1 ['f']).toFinset ∧
    (derivedIds ['h', 'i'] 5 1 ['f']).Nodup :=
  ingest_idempotent_ids ['h', 'i'] ['h', 'i'] 5 5 1 1 ['f'] ['f'] rfl rfl rfl rfl

/-- C10: in the delegated-vectorize variant the record_id derivation removes
every occurrence of ".pdf" from the source filename, not only a trailing
extension; consequently the two distinct filenames "report.pdf.pdf" and
"report.pdf" derive identical record ids at every sequence index, so
record_id is not injective across distinct source ids. -/
theorem recordId_not_injective_across_sources :
    replaceAll ['.', 'p', 'd', 'f'] [] "x.pdf.pdfy".toList = "xy".toList ∧
    "report.pdf.pdf".toList ≠ "report.pdf".toList ∧
    ∀ i : Nat,
      recordId_simple "report.pdf.pdf".toList i = recordId_simple "report.pdf".toList i := by
  refine ⟨by decide, by decide, ?_⟩
  intro i
  unfold recordId_simple
  rw [show replaceAll ['.', 'p', 'd', 'f'] [] "report.pdf.pdf".toList =
      replaceAll ['.', 'p', 'd', 'f'] [] "report.pdf".toList from by decide]

/-! ### Lemmas about batching -/

theorem batchCeil_zero (bs : Nat) : (bs - 1) / bs = 0 := by
  rcases bs with _ | k
  · rfl
  · exact Nat.div_eq_of_lt (by omega)

theorem toBatches_nil (bs : Nat) : toBatches bs ([] : List α) = [] := by
  unfold toBatches batchStarts
  simp [batchCeil_zero]

theorem toBatches_length (bs : Nat) (l : List α) :
    (toBatches bs l).length = (l.length + bs - 1) / bs := by
  simp [toBatches, batchStarts]

theorem toBatches_cons (bs : Nat) (hbs : 0 < bs) (l : List α) (hl : l ≠ []) :
    toBatches bs l = l.take bs :: toBatches bs (l.drop bs) := by
  have hn : 1 ≤ l.length := List.length_pos.mpr hl
  unfold toBatches batchStarts
  rw [List.length_drop]
  have hcount : (l.length + bs - 1) / bs = (l.length - bs + bs - 1) / bs + 1 := by
    rcases Nat.lt_or_ge bs l.length with hc | hc
    · have h2 : l.length + bs - 1 = (l.length - 1) + bs := by omega
      have h3 : l.length - bs + bs - 1 = (l.length - bs - 1) + bs := by omega
      have h4 : l.length - 1 = (l.length - bs - 1) + bs := by omega
      rw [h2, Nat.add_div_right _ hbs, h3, Nat.add_div_right _ hbs, h4,
        Nat.add_div_right _ hbs]
    · have h1 : l.length - bs = 0 := by omega
      rw [h1, Nat.zero_add, batchCeil_zero]
      have h2 : l.length + bs - 1 = (l.length - 1) + bs := by omega
      rw [h2, Nat.add_div_right _ hbs, Nat.div_eq_of_lt (by omega)]
  rw [hcount, List.range_succ_eq_map]
  simp only [List.map_cons, List.map_map]
  congr 1
  · simp
  · refine List.map_congr_left ?_
    intro i _
    simp only [Function.comp_apply]
    rw [List.drop_drop]
    congr 2
    simp [Nat.succ_mul]
    omega

theorem toBatches_flatten (bs : Nat) (hbs : 0 < bs) :
    ∀ (n : Nat) (l : List α), l.length ≤ n → (toBatches bs l).flatten = l := by
  intro n
  induction n with
  | zero =>
      intro l hl
      have h : l = [] := List.length_eq_zero.mp (by omega)
      subst h
      simp [toBatches_nil]
  | succ n ih =>
      intro l hl
      rcases eq_or_ne l [] with h | h
      · subst h
        simp [toBatches_nil]
      · rw [toBatches_cons bs hbs l h, List.flatten_cons,
          ih (l.drop bs) (by rw [List.length_drop]; have := List.length_pos.mpr h; omega)]
        exact List.take_append_drop bs l

theorem toBatches_map_length (bs : Nat) (l : List α) :
    (toBatches bs l).map List.length =
      (batchStarts l.length bs).map (fun i => min bs (l.length - i)) := by
  unfold toBatches
  rw [List.map_map]
  refine List.map_congr_left ?_
  intro i _
  simp [List.length_take, List.length_drop]

theorem toBatches_getElem (bs : Nat) (l : List α) (i : Nat)
    (hi : i < (l.length + bs - 1) / bs) :
    (toBatches bs l)[i]? = some ((l.drop (i * bs)).take bs) := by
  unfold toBatches batchStarts
  rw [List.getElem?_map, List.getElem?_map, List.getElem?_range hi]
  rfl

/-- C6: for every sequence of n chunk records the ingestor partitions them in
order into ceil(n/20) batches submitted sequentially, each batch of size
exactly 20 except a possibly smaller final batch (every batch non-empty, at
most 20); the concatenation of the batches in submission order equals the
original record sequence, and 45 records yield batch sizes [20, 20, 5]. -/
theorem toBatches_partition (l : List ChunkDoc) :
    (toBatches 20 l).length = (l.length + 19) / 20 ∧
    (toBatches 20 l).flatten = l ∧
    (∀ i, i + 1 < (toBatches 20 l).length →
      ∀ b, (toBatches 20 l)[i]? = some b → b.length = 20) ∧
    (∀ b ∈ toBatches 20 l, b.length ≤ 20 ∧ b ≠ []) ∧
    (l.length = 45 → (toBatches 20 l).map List.length = [20, 20, 5]) := by
  refine ⟨by rw [toBatches_length]; congr 1, toBatches_flatten 20 (by norm_num) l.length l le_rfl,
    ?_, ?_, ?_⟩
  · intro i hi b hb
    rw [toBatches_length] at hi
    rw [toBatches_getElem 20 l i (by omega)] at hb
    have hb2 : b = (l.drop (i * 20)).take 20 := by
      injection hb with hb
      exact hb.symm
    subst hb2
    have hfit : (i + 1) * 20 ≤ l.length := by
      have h2 : i + 2 ≤ (l.length + 20 - 1) / 20 := by omega
      have h3 := (Nat.le_div_iff_mul_le (by omega : 0 < 20)).mp h2
      omega
    rw [List.length_take, List.length_drop]
    omega
  · intro b hb
    unfold toBatches batchStarts at hb
    rw [List.map_map] at hb
    rcases List.mem_map.mp hb with ⟨j, hj, hb2⟩
    rcases List.mem_range.mp hj with hjlt
    subst hb2
    simp only [Function.comp_apply]
    have hstart : j * 20 < l.length := by
      have h2 : j + 1 ≤ (l.length + 20 - 1) / 20 := by omega
      have h3 := (Nat.le_div_iff_mul_le (by omega : 0 < 20)).mp h2
      omega
    constructor
    · rw [List.length_take]
      omega
    · intro hnil
      have := congrArg List.length hnil
      rw [List.length_take, List.length_drop] at this
      simp at this
      omega
  · intro hl
    rw [toBatches_map_length, hl]
    decide

/-- Witness for C6 at a concrete 45-record input. -/
theorem toBatches_partition_witness :
    (List.replicate 45 (⟨[], [], 0, 0, []⟩ : ChunkDoc)).length = 45 ∧
    (toBatches 20 (List.replicate 45 (⟨[], [], 0, 0, []⟩ : ChunkDoc))).map List.length =
      [20, 20, 5] :=
  ⟨by decide, (toBatches_partition (List.replicate 45 ⟨[], [], 0, 0, []⟩)).2.2.2.2 (by decide)⟩

/-! ### Lemmas about the submission loops -/

theorem submitLoopSimple_map_fst (insert : List ChunkDoc → Except (List Char) Nat) :
    ∀ bas, (submitLoopSimple insert bas).map Prod.fst = bas := by
  intro bas
  induction bas with
  | nil => rfl
  | cons b bs ih => simp [submitLoopSimple, ih]

theorem submitLoopSimple_getElem (insert : List ChunkDoc → Except (List Char) Nat) :
    ∀ (bas : List (List ChunkDoc)) (j : Nat) (b : List ChunkDoc), bas[j]? = some b →
    (submitLoopSimple insert bas)[j]? = some (b, insert b) := by
  intro bas
  induction bas with
  | nil =>
      intro j b h
      simp at h
  | cons x xs ih =>
      intro j b h
      cases j with
      | zero =>
          simp only [List.getElem?_cons_zero, Option.some.injEq] at h
          subst h
          simp [submitLoopSimple]
      | succ j =>
          rw [List.getElem?_cons_succ] at h
          rw [submitLoopSimple, List.getElem?_cons_succ]
          exact ih j b h

theorem ingest_to_astra_ok (env : Env) (insert : List ChunkDoc → Except (List Char) Nat)
    (chunks : List (List Char)) (fn : List Char) (henv : credsMissing env = false) :
    ingest_to_astra env insert chunks fn =
      ((toBatches 20 (mkDocuments chunks fn)).map RemoteOp.insertMany,
        Except.ok (submitLoopSimple insert (toBatches 20 (mkDocuments chunks fn)))) := by
  unfold ingest_to_astra
  rw [henv]
  rfl

/-- C1 counterexample: in the v2 (local embedding) ingest the batch loop has
no per-batch exception handling, so with 21 chunks (2 batches) and an insert
that fails, only the first batch is ever attempted — a failure while
submitting one batch does prevent subsequent batches. -/
theorem ingest_v2_partial_failure_cex :
    (toBatches 20 (mkDocumentsV2 (fun _ => []) (List.replicate 21 ['a']) ['f'])).length = 2 ∧
    (ingest_to_astra_v2 ⟨some ['e'], some ['t']⟩ (fun _ => Except.error ['b'])
        (fun _ => []) (List.replicate 21 ['a']) ['f']).toOption.map
      (fun r => (r.1.length, r.2)) = some (1, some ['b']) := by
  constructor
  · rfl
  · rfl

/-- C1 (amended): in the delegated-vectorize ingest of `ingest_pdf_simple.py`
a failure while submitting one batch does not prevent any subsequent batch —
for every chunk sequence and every outcome pattern, the recorded outcomes
cover every batch in order, and any batch after a failed one is still
attempted with its own outcome; the v2 local-embedding ingest instead aborts
at the first failing batch. -/
theorem ingest_simple_partial_failure_tolerant (env : Env)
    (insert : List ChunkDoc → Except (List Char) Nat)
    (chunks : List (List Char)) (pdf_filename : List Char)
    (henv : credsMissing env = false)
    (outs : List (List ChunkDoc × Except (List Char) Nat))
    (houts : (ingest_to_astra env insert chunks pdf_filename).2 = Except.ok outs)
    (i j : Nat) (hij : i < j)
    (bi : List ChunkDoc)
    (hbi : (toBatches 20 (mkDocuments chunks pdf_filename))[i]? = some bi)
    (hfail : (insert bi).isOk = false) :
    outs.map Prod.fst = toBatches 20 (mkDocuments chunks pdf_filename) ∧
    ∀ bj, (toBatches 20 (mkDocuments chunks pdf_filename))[j]? = some bj →
      outs[j]? = some (bj, insert bj) := by
  rw [ingest_to_astra_ok env insert chunks pdf_filename henv] at houts
  simp only [Except.ok.injEq] at houts
  subst houts
  exact ⟨submitLoopSimple_map_fst insert _,
    fun bj hbj => submitLoopSimple_getElem insert _ j bj hbj⟩

/-- Witness for the amended C1: two batches, the first fails, the second is
still attempted and recorded. -/
theorem ingest_simple_partial_failure_tolerant_witness :
    credsMissing ⟨some ['e'], some ['t']⟩ = false ∧
    ((ingest_to_astra ⟨some ['e'], some ['t']⟩ (fun _ => Except.error ['x'])
        (List.replicate 21 ['a']) ['f']).2 =
      Except.ok (submitLoopSimple (fun _ => Except.error ['x'])
        (toBatches 20 (mkDocuments (List.replicate 21 ['a']) ['f'])))) ∧
    (0 : Nat) < 1 ∧
    ((toBatches 20 (mkDocuments (List.replicate 21 ['a']) ['f']))[0]? =
      some (toBatches 20 (mkDocuments (List.replicate 21 ['a']) ['f']))[0]!) ∧
    (((fun (_ : List ChunkDoc) => Except.error (ε := List Char) (α := Nat) ['x'])
        (toBatches 20 (mkDocuments (List.replicate 21 ['a']) ['f']))[0]!).isOk = false) ∧
    ((submitLoopSimple (fun _ => Except.error ['x'])
        (toBatches 20 (mkDocuments (List.replicate 21 ['a']) ['f']))).map Prod.fst =
      toBatches 20 (mkDocuments (List.replicate 21 ['a']) ['f'])) :=
  ⟨rfl, rfl, by decide, rfl, rfl,
    (ingest_simple_partial_failure_tolerant ⟨some ['e'], some ['t']⟩
      (fun _ => Except.error ['x']) (List.replicate 21 ['a']) ['f'] rfl _ rfl
      0 1 (by decide) _ rfl rfl).1⟩

/-- C7: for every extracted text that is empty or consists only of
whitespace, the pipeline produces zero chunks and ingestion of that document
aborts with an error before any remote store call is made — no batch (in
particular no empty batch) is ever submitted. -/
theorem mainSimple_empty_text_aborts (env : Env)
    (insert : List ChunkDoc → Except (List Char) Nat)
    (text : List Char) (chunk_size chunk_overlap : Nat) (pdf_filename : List Char)
    (h : stripChars text = []) :
    mainSimple env insert text chunk_size chunk_overlap pdf_filename =
      { errored := some .noTextExtracted, chunks := [], remote_calls := [], outcomes := [] } := by
  unfold mainSimple
  rw [if_pos h]

/-- Witness for C7 on a whitespace-only text. -/
theorem mainSimple_empty_text_aborts_witness :
    stripChars [' ', '\n', ' '] = [] ∧
    mainSimple ⟨some ['e'], some ['t']⟩ (fun _ => Except.ok 0) [' ', '\n', ' '] 1000 200 ['f'] =
      { errored := some .noTextExtracted, chunks := [], remote_calls := [], outcomes := [] } :=
  ⟨by decide, mainSimple_empty_text_aborts ⟨some ['e'], some ['t']⟩ (fun _ => Except.ok 0)
    [' ', '\n', ' '] 1000 200 ['f'] (by decide)⟩

/-- C8 counterexample: with both credentials absent, `list_collections`
raises no configuration error — it performs no credential check and contacts
the store (the listCollections call is made and the store's answer is
returned), contradicting the claim that every store-contacting operation
aborts with a configuration error first. -/
theorem list_collections_no_config_check_cex :
    credsMissing ⟨none, none⟩ = true ∧
    (list_collections ⟨none, none⟩ (Except.ok [])).1 = [RemoteOp.listCollections] ∧
    (list_collections ⟨none, none⟩ (Except.ok [])).2 = Except.ok [] :=
  ⟨rfl, rfl, rfl⟩

/-- C8 (amended): when a required connection credential is absent, ingestion
(both variants) and query raise the configuration error before any remote
call (no remote call is recorded); collection listing performs no credential
check and contacts the store regardless. -/
theorem config_error_before_remote (env : Env)
    (insert : List ChunkDoc → Except (List Char) Nat)
    (insert2 : List ChunkDocV2 → Except (List Char) Nat)
    (embed : List Char → List Int)
    (search : List Char → Nat → Except (List Char) (List ChunkDoc))
    (names : Except (List Char) (List (List Char)))
    (chunks : List (List Char)) (fn q : List Char) (lim : Nat)
    (h : credsMissing env = true) :
    ingest_to_astra env insert chunks fn = ([], Except.error .missingCreds) ∧
    ingest_to_astra_v2 env insert2 embed chunks fn = Except.error .missingCreds ∧
    query_astra env search q lim = ([], Except.error .missingCreds) ∧
    (list_collections env names).1 = [RemoteOp.listCollections] := by
  refine ⟨?_, ?_, ?_, ?_⟩
  · unfold ingest_to_astra
    rw [h]
    rfl
  · unfold ingest_to_astra_v2
    rw [h]
    rfl
  · unfold query_astra
    rw [h]
    rfl
  · unfold list_collections
    rcases names with e | ns <;> rfl

/-- Witness for the amended C8 with both credentials unset. -/
theorem config_error_before_remote_witness :
    credsMissing ⟨none, none⟩ = true ∧
    (ingest_to_astra ⟨none, none⟩ (fun _ => Except.ok 0) [['a']] ['f'] =
        ([], Except.error .missingCreds) ∧
      ingest_to_astra_v2 ⟨none, none⟩ (fun _ => Except.ok 0) (fun _ => []) [['a']] ['f'] =
        Except.error .missingCreds ∧
      query_astra ⟨none, none⟩ (fun _ _ => Except.ok []) ['q'] 5 =
        ([], Except.error .missingCreds) ∧
      (list_collections ⟨none, none⟩ (Except.ok [])).1 = [RemoteOp.listCollections]) :=
  ⟨rfl, config_error_before_remote ⟨none, none⟩ (fun _ => Except.ok 0) (fun _ => Except.ok 0)
    (fun _ => []) (fun _ _ => Except.ok []) (Except.ok []) [['a']] ['f'] ['q'] 5 rfl⟩

/-- C9: a query whose similarity search returns zero records completes
successfully, reporting an empty result set (count zero, no-results notice)
as a valid non-error outcome, while a failing search is raised as an error —
the two cases are distinguishable by the caller. -/
theorem query_zero_results_valid (env : Env)
    (search : List Char → Nat → Except (List Char) (List ChunkDoc))
    (q : List Char) (lim : Nat)
    (henv : credsMissing env = false) (hz : search q lim = Except.ok []) :
    (query_astra env search q lim).2 =
      Except.ok { result_count := 0, no_results_message := true } ∧
    ∀ e, (query_astra env (fun _ _ => Except.error e) q lim).2 =
      Except.error (.remote e) := by
  constructor
  · unfold query_astra
    rw [henv, hz]
    rfl
  · intro e
    unfold query_astra
    rw [henv]
    rfl

/-- Witness for C9 against an empty collection with limit 5. -/
theorem query_zero_results_valid_witness :
    credsMissing ⟨some ['e'], some ['t']⟩ = false ∧
    ((fun (_ : List Char) (_ : Nat) => Except.ok (ε := List Char) ([] : List ChunkDoc)) ['q'] 5 =
      Except.ok []) ∧
    (query_astra ⟨some ['e'], some ['t']⟩ (fun _ _ => Except.ok []) ['q'] 5).2 =
      Except.ok { result_count := 0, no_results_message := true } :=
  ⟨rfl, rfl,
    (query_zero_results_valid ⟨some ['e'], some ['t']⟩ (fun _ _ => Except.ok []) ['q'] 5
      rfl rfl).1⟩
